import Mathlib

/-!
Shallow embedding of the spectral feature catalog (src/features/spectral.py)
of the CREAM feature study.  Matrices of measurements / spectra are modelled
as lists of rows of rationals; numpy float arithmetic is modelled over ℚ
(and over ℝ where roots are involved).  Fallible operations return `Except`.
-/

/-- A matrix: list of rows of rationals. -/
abbrev Mat := List (List ℚ)

/-- `POWER_FREQUENCY = 50` Hz (module constant). -/
def POWER_FREQUENCY : ℚ := 50

/-- `SAMPLING_RATE = 6400` measurements / second (module constant). -/
def SAMPLING_RATE : ℚ := 6400

/-- Row-wise mean, `np.mean` of a single row. -/
def meanQ (l : List ℚ) : ℚ := l.sum / l.length

/-- Python slice `l[a:b]`. -/
def sliceList (l : List ℚ) (a b : ℕ) : List ℚ := (l.drop a).take (b - a)

/-- `np.arange(start, stop, step)` over naturals. -/
def arangeStep (start stop step : ℕ) : List ℕ :=
  (List.range ((stop - start + step - 1) / step)).map (fun i => start + i * step)

/-- `np.argmin`: index of the first minimal element (0 on the empty list). -/
def argminL {α : Type} [LinearOrder α] : List α → ℕ
  | [] => 0
  | [_] => 0
  | x :: y :: ys =>
    let i := argminL (y :: ys)
    if x ≤ (y :: ys).getD i y then 0 else i + 1

/-- `np.argmax`: index of the first maximal element (0 on the empty list). -/
def argmaxL {α : Type} [LinearOrder α] : List α → ℕ
  | [] => 0
  | [_] => 0
  | x :: y :: ys =>
    let i := argmaxL (y :: ys)
    if (y :: ys).getD i y ≤ x then 0 else i + 1

/-- `i` is the first index of a minimal element of `l` (np.argmin contract). -/
def IsFirstMinIdx {α : Type} [LinearOrder α] [Inhabited α] (l : List α) (i : ℕ) : Prop :=
  i < l.length ∧ (∀ j, j < l.length → l.getD i default ≤ l.getD j default)
    ∧ (∀ j, j < i → l.getD i default < l.getD j default)

/-- `i` is the first index of a maximal element of `l` (np.argmax contract). -/
def IsFirstMaxIdx {α : Type} [LinearOrder α] [Inhabited α] (l : List α) (i : ℕ) : Prop :=
  i < l.length ∧ (∀ j, j < l.length → l.getD j default ≤ l.getD i default)
    ∧ (∀ j, j < i → l.getD j default < l.getD i default)

/-- `_get_window_from_spectrum`: window length implied by a spectrum,
`(spectrum_amp.shape[1] - 1) * 2`. -/
def _get_window_from_spectrum (spectrum_amp : Mat) : ℕ :=
  ((spectrum_amp.head?.getD []).length - 1) * 2

/-- `_get_harmonics_indices`: for each harmonic order `i = 1..n`, the index of
the first bin minimizing `|freq - i * power_frequency|`, negative frequencies
clamped to 0 first. -/
def _get_harmonics_indices (sf : List ℚ) (n : ℕ) (power_frequency : ℚ) : List ℕ :=
  let freqs := sf.map (fun x => if x < 0 then 0 else x)
  (List.range n).map (fun (i : ℕ) =>
    argminL (freqs.map (fun q => |q - ((i : ℚ) + 1) * power_frequency|)))

/-- `spectral_frequencies`: `fft.rfftfreq(window) * sampling_rate`, optionally
restricted to the harmonic bins. -/
def spectral_frequencies (window : ℕ) (n : ℕ) (limit_to_harmonics : Bool)
    (power_frequency sampling_rate : ℚ) : List ℚ :=
  let freqs := (List.range (window / 2 + 1)).map
    (fun (k : ℕ) => (k : ℚ) / (window : ℚ) * sampling_rate)
  if limit_to_harmonics then
    (_get_harmonics_indices freqs n power_frequency).map (fun i => freqs.getD i 0)
  else freqs

/-- Sorted insertion skipping duplicates (building block of `np.unique`). -/
def insertSortedDedup (x : ℚ) : List ℚ → List ℚ
  | [] => [x]
  | y :: ys =>
    if x < y then x :: y :: ys
    else if x = y then y :: ys
    else y :: insertSortedDedup x ys

/-- `np.unique` (values part): ascending sorted list of distinct members. -/
def sortedDedup (l : List ℚ) : List ℚ := l.foldr insertSortedDedup []

/-- `_peak_amplitude_frequency` (the `all=False` path used by the mains
resolver): per row the frequency of the first maximal-amplitude bin, then the
most common such frequency; `np.unique` enumerates the distinct frequencies in
ascending order and `np.argmax(counts)` picks the first maximal count. -/
def _peak_amplitude_frequency (spectrum_amp : Mat) (freqs : List ℚ) : ℚ :=
  let peaks := spectrum_amp.map (fun row => freqs.getD (argmaxL row) 0)
  let values := sortedDedup peaks
  let counts := values.map (fun v => peaks.count v)
  values.getD (argmaxL counts) 0

/-- Errors raised by the module; each carries the offending value that the
Python `ValueError` message names. -/
inductive SpectralError where
  | invalidMainsFrequency (freq : ℚ)
  | unsupportedFilterType (filter_type : String)
  deriving DecidableEq, Repr

/-- `_mains_frequency_amplitude`: resolve the mains frequency (explicit value,
or `none` = frequency of peak amplitude), look it up exactly in the bin
frequencies of the spectrum's implied window, and return the `(rows, 1)`
amplitude column; error carrying the resolved frequency if it is not a bin. -/
def _mains_frequency_amplitude (spectrum_amp : Mat) (mains_frequency : Option ℚ)
    (power_frequency sampling_rate : ℚ) : Except SpectralError Mat :=
  let window := _get_window_from_spectrum spectrum_amp
  let freqs := spectral_frequencies window 20 false power_frequency sampling_rate
  let mf := match mains_frequency with
    | none => _peak_amplitude_frequency spectrum_amp freqs
    | some f => f
  match freqs.findIdx? (fun q => decide (q = mf)) with
  | none => .error (.invalidMainsFrequency mf)
  | some idx => .ok (spectrum_amp.map (fun row => [row.getD idx 0]))

/-- `odd_even_ratio` as implemented: the index sets are
`np.arange(0, 20, step=20) = [0]` and `np.arange(1, 20, step=20) = [1]`. -/
def odd_even_ratio (harmonics_amp : Mat) : Mat :=
  let odd := arangeStep 0 20 20
  let even := arangeStep 1 20 20
  harmonics_amp.map (fun row =>
    [meanQ (odd.map (fun i => row.getD i 0)) / meanQ (even.map (fun i => row.getD i 0))])

/-- The odd-even ratio as the spec (and the source docstring) states it:
mean of the odd-order harmonics (column indices 0,2,...,18) over the mean of
the even-order harmonics (column indices 1,3,...,19). -/
def spec_odd_even_ratio (row : List ℚ) : ℚ :=
  meanQ ((arangeStep 0 20 2).map (fun i => row.getD i 0))
    / meanQ ((arangeStep 1 20 2).map (fun i => row.getD i 0))

/-- `tristiumulus` as implemented: `T3` sums columns `4:9`, i.e. harmonics
5 through 9. -/
def tristiumulus (harmonics_amp : Mat) : Mat :=
  harmonics_amp.map (fun row =>
    let harmonics_sum := row.sum
    let t_1 := row.getD 0 0 / harmonics_sum
    let t_2 := (row.getD 1 0 + row.getD 2 0 + row.getD 3 0) / harmonics_sum
    let t_3 := (sliceList row 4 9).sum / harmonics_sum
    [t_1, t_2, t_3])

/-- The tristimulus triple as the spec (and the source docstring) states it:
`T3` sums harmonics 5 through 10 (column indices 4..9) over the sum of the
first 20 harmonics. -/
def spec_tristiumulus (row : List ℚ) : List ℚ :=
  let s := (sliceList row 0 20).sum
  [row.getD 0 0 / s,
   (row.getD 1 0 + row.getD 2 0 + row.getD 3 0) / s,
   (sliceList row 4 10).sum / s]

/-- The zero-clamp `np.where(x == 0, 0.00001, x)` applied entrywise. -/
def clampF (x : ℚ) : ℚ := if x = 0 then 1 / 100000 else x

/-- Modelled from the spec: `geo_mean` (from the missing `features/helpers.py`)
is the row-wise geometric mean, `(∏ x) ^ (1/N)`. -/
noncomputable def geo_mean (row : List ℚ) : ℝ :=
  ((row.map (fun (x : ℚ) => (x : ℝ))).prod) ^ ((1 : ℝ) / (row.length : ℝ))

/-- `spectral_flatness`: zeros clamped to `1e-5`, then geometric mean over
arithmetic mean, row-wise. -/
noncomputable def spectral_flatness (spectrum_amp : Mat) : List ℝ :=
  spectrum_amp.map (fun row =>
    let c := row.map clampF
    geo_mean c / ((c.sum / (c.length : ℚ) : ℚ) : ℝ))

/-- `harmonics_energy_distribution`: harmonic amplitudes divided row-wise by
the mains amplitude, which is always resolved with all-default arguments
(`mains_frequency = POWER_FREQUENCY`, default sampling rate). -/
def harmonics_energy_distribution (harmonics_amp spectrum_amp : Mat) :
    Except SpectralError Mat :=
  match _mains_frequency_amplitude spectrum_amp (some POWER_FREQUENCY)
      POWER_FREQUENCY SAMPLING_RATE with
  | .error e => .error e
  | .ok mains =>
    .ok (List.zipWith (fun hrow mrow => hrow.map (fun x => x / mrow.getD 0 0))
      harmonics_amp mains)

/-- Modelled from the spec: `rms` (from the missing `features/helpers.py`) is
the row-wise root-mean-square, `sqrt(mean(square(values)))`. -/
noncomputable def rms (row : List ℚ) : ℝ :=
  Real.sqrt (((row.map (fun x => x * x)).sum / (row.length : ℚ) : ℚ) : ℝ)

/-- `total_harmonic_distortion`: rms of the harmonics divided row-wise by the
mains amplitude, which is always resolved with all-default arguments. -/
noncomputable def total_harmonic_distortion (harmonics_amp spectrum_amp : Mat) :
    Except SpectralError (List ℝ) :=
  match _mains_frequency_amplitude spectrum_amp (some POWER_FREQUENCY)
      POWER_FREQUENCY SAMPLING_RATE with
  | .error e => .error e
  | .ok mains =>
    .ok (List.zipWith (fun hrow mrow => rms hrow / ((mrow.getD 0 0 : ℚ) : ℝ))
      harmonics_amp mains)

/-- `high_pass_filter`: gain vector over the bin frequencies of the spectrum's
implied window (default power and sampling rates), multiplied entrywise into
every row; unknown filter types error, carrying the offending type. -/
def high_pass_filter (spectrum_amp : Mat) (filter_type : String)
    (filter_frequency : ℚ) : Except SpectralError Mat :=
  let window := _get_window_from_spectrum spectrum_amp
  let freqs := spectral_frequencies window 20 false POWER_FREQUENCY SAMPLING_RATE
  let gains : Option (List ℚ) :=
    if filter_type = "zero" then
      some (freqs.map (fun f => if f < filter_frequency then 0 else 1))
    else if filter_type = "linear" then
      some (freqs.map (fun f => if f < filter_frequency then f / filter_frequency else 1))
    else if filter_type = "quadratic" then
      some (freqs.map (fun f =>
        if f < filter_frequency then (f / filter_frequency) * (f / filter_frequency) else 1))
    else if filter_type = "none" then
      some (freqs.map (fun _ => 1))
    else none
  match gains with
  | none => .error (.unsupportedFilterType filter_type)
  | some g => .ok (spectrum_amp.map (fun row => List.zipWith (fun x gn => x * gn) row g))

/-! ### Generic list helper lemmas -/

theorem getD_map_of_lt {α β : Type} (f : α → β) (l : List α) (i : ℕ)
    (hi : i < l.length) (d : β) (d' : α) :
    (l.map f).getD i d = f (l.getD i d') := by
  rw [List.getD_eq_getElem _ _ (by simpa using hi), List.getD_eq_getElem _ _ hi]
  simp

theorem getD_zipWith_of_lt {α β γ : Type} (f : α → β → γ) (a : List α) (b : List β)
    (i : ℕ) (hia : i < a.length) (hib : i < b.length) (d : γ) (da : α) (db : β) :
    (List.zipWith f a b).getD i d = f (a.getD i da) (b.getD i db) := by
  induction a generalizing b i with
  | nil => simp at hia
  | cons x xs ih =>
    cases b with
    | nil => simp at hib
    | cons y ys =>
      cases i with
      | zero => simp
      | succ j =>
        simpa using ih ys j (by simpa using hia) (by simpa using hib)

theorem zipWith_mul_ones (row g : List ℚ) (hg : ∀ x ∈ g, x = 1)
    (hlen : row.length ≤ g.length) :
    List.zipWith (fun x gn => x * gn) row g = row := by
  induction row generalizing g with
  | nil => simp
  | cons x xs ih =>
    cases g with
    | nil => simp at hlen
    | cons y ys =>
      simp only [List.zipWith_cons_cons]
      rw [hg y (by simp), mul_one]
      rw [ih ys (fun z hz => hg z (by simp [hz])) (by simpa using hlen)]

/-- The full bin-frequency vector has `window / 2 + 1` entries. -/
theorem spectral_frequencies_full_length (window n : ℕ) (pf sr : ℚ) :
    (spectral_frequencies window n false pf sr).length = window / 2 + 1 := by
  show ((List.range (window / 2 + 1)).map
    (fun (k : ℕ) => (k : ℚ) / (window : ℚ) * sr)).length = window / 2 + 1
  rw [List.length_map, List.length_range]

/-- Each row of a uniform spectrum is at most as long as the derived
bin-frequency vector. -/
theorem row_length_le_freqs (s : Mat) (n : ℕ) (pf sr : ℚ)
    (hu : ∀ r ∈ s, r.length = (s.head?.getD []).length) (r : List ℚ) (hr : r ∈ s) :
    r.length ≤ (spectral_frequencies (_get_window_from_spectrum s) n false pf sr).length := by
  rw [spectral_frequencies_full_length, _get_window_from_spectrum, hu r hr]
  omega

theorem findIdx?_eq_some_of_first {α : Type} (p : α → Bool) (l : List α) (idx : ℕ)
    (d : α) (hidx : idx < l.length) (hp : p (l.getD idx d) = true)
    (hfirst : ∀ j, j < idx → p (l.getD j d) = false) :
    l.findIdx? p = some idx := by
  induction l generalizing idx with
  | nil => simp at hidx
  | cons x xs ih =>
    cases idx with
    | zero =>
      simp only [List.getD_cons_zero] at hp
      rw [List.findIdx?_cons, if_pos hp]
    | succ j =>
      have hx : p x = false := by simpa using hfirst 0 (Nat.succ_pos j)
      rw [List.findIdx?_cons, if_neg (by simp [hx]), List.findIdx?_succ]
      have hj : xs.findIdx? p = some j := by
        refine ih j (by simpa using hidx) (by simpa using hp) (fun k hk => ?_)
        simpa using hfirst (k + 1) (by omega)
      rw [hj, Option.map_some']

/-- The mains frequency the resolver actually looks up: the explicit request,
or for `none` the majority-vote peak-amplitude frequency. -/
def resolvedMainsFrequency (spectrum_amp : Mat) (mains_frequency : Option ℚ)
    (power_frequency sampling_rate : ℚ) : ℚ :=
  match mains_frequency with
  | none => _peak_amplitude_frequency spectrum_amp
      (spectral_frequencies (_get_window_from_spectrum spectrum_amp) 20 false
        power_frequency sampling_rate)
  | some f => f

/-- Core behavior of `_mains_frequency_amplitude`: it fails, with an error
naming the resolved frequency, exactly when that frequency is not a bin
frequency; it succeeds exactly when it is; and on success it returns the
amplitude column of the first matching bin. -/
theorem mains_amp_spec (s : Mat) (mf : Option ℚ) (pf sr : ℚ) :
    (_mains_frequency_amplitude s mf pf sr
        = .error (.invalidMainsFrequency (resolvedMainsFrequency s mf pf sr))
      ↔ resolvedMainsFrequency s mf pf sr
          ∉ spectral_frequencies (_get_window_from_spectrum s) 20 false pf sr)
    ∧ ((∃ v, _mains_frequency_amplitude s mf pf sr = .ok v)
      ↔ resolvedMainsFrequency s mf pf sr
          ∈ spectral_frequencies (_get_window_from_spectrum s) 20 false pf sr)
    ∧ (∀ idx,
        idx < (spectral_frequencies (_get_window_from_spectrum s) 20 false pf sr).length →
        (spectral_frequencies (_get_window_from_spectrum s) 20 false pf sr).getD idx 0
          = resolvedMainsFrequency s mf pf sr →
        (∀ j, j < idx →
          (spectral_frequencies (_get_window_from_spectrum s) 20 false pf sr).getD j 0
            ≠ resolvedMainsFrequency s mf pf sr) →
        _mains_frequency_amplitude s mf pf sr
          = .ok (s.map (fun row => [row.getD idx 0]))) := by
  set F := spectral_frequencies (_get_window_from_spectrum s) 20 false pf sr with hF
  set m := resolvedMainsFrequency s mf pf sr with hm
  have hres : _mains_frequency_amplitude s mf pf sr =
      (match F.findIdx? (fun q => decide (q = m)) with
       | none => .error (.invalidMainsFrequency m)
       | some idx => .ok (s.map (fun row => [row.getD idx 0]))) := by
    rw [hF, hm]
    cases mf <;> rfl
  have hnone_of : m ∉ F → F.findIdx? (fun q => decide (q = m)) = none := fun hnm =>
    List.findIdx?_eq_none_iff.mpr (fun x hx => by
      simp only [decide_eq_false_iff_not]
      exact fun hxm => hnm (hxm ▸ hx))
  have hmem_of : ∀ i, F.findIdx? (fun q => decide (q = m)) = some i → m ∈ F := by
    intro i hk
    by_contra hnm
    rw [hnone_of hnm] at hk
    exact Option.noConfusion hk
  refine ⟨?_, ?_, ?_⟩
  · rw [hres]
    cases hk : F.findIdx? (fun q => decide (q = m)) with
    | none =>
      simp only
      rw [List.findIdx?_eq_none_iff] at hk
      constructor
      · intro _ hmem
        have := hk _ hmem
        simp at this
      · intro _; trivial
    | some i =>
      simp only
      constructor
      · intro hcl; exact absurd hcl (by simp)
      · intro hnm
        rw [hnone_of hnm] at hk
        exact Option.noConfusion hk
  · rw [hres]
    cases hk : F.findIdx? (fun q => decide (q = m)) with
    | none =>
      simp only
      rw [List.findIdx?_eq_none_iff] at hk
      constructor
      · rintro ⟨v, hv⟩; exact absurd hv (by simp)
      · intro hmem
        have := hk _ hmem
        simp at this
    | some i =>
      simp only
      exact ⟨fun _ => hmem_of i hk, fun _ => ⟨_, rfl⟩⟩
  · intro idx hidx heq hfirst
    rw [hres]
    have hk : F.findIdx? (fun q => decide (q = m)) = some idx := by
      refine findIdx?_eq_some_of_first _ _ idx 0 hidx (by rw [heq]; simp) (fun j hj => ?_)
      simpa using hfirst j hj
    rw [hk]

/-- `argminL` returns the first index of a minimal element. -/
theorem argminL_isFirstMinIdx {α : Type} [LinearOrder α] [Inhabited α] :
    ∀ (l : List α), l ≠ [] → IsFirstMinIdx l (argminL l)
  | [], h => absurd rfl h
  | [x], _ => by
    refine ⟨by simp [argminL], fun j hj => ?_, fun j hj => ?_⟩
    · have hj0 : j = 0 := by simpa using hj
      subst hj0
      simp [argminL]
    · simp [argminL] at hj
  | x :: y :: ys, _ => by
    have ih := argminL_isFirstMinIdx (y :: ys) (by simp)
    obtain ⟨ih1, ih2, ih3⟩ := ih
    have hdef : argminL (x :: y :: ys) =
        if x ≤ (y :: ys).getD (argminL (y :: ys)) y then 0
        else argminL (y :: ys) + 1 := rfl
    have hvd : (y :: ys).getD (argminL (y :: ys)) y
        = (y :: ys).getD (argminL (y :: ys)) default := by
      rw [List.getD_eq_getElem _ _ ih1, List.getD_eq_getElem _ _ ih1]
    by_cases hx : x ≤ (y :: ys).getD (argminL (y :: ys)) y
    · rw [hdef, if_pos hx]
      rw [hvd] at hx
      refine ⟨by simp, fun j hj => ?_, fun j hj => by omega⟩
      cases j with
      | zero => simp
      | succ k =>
        rw [List.getD_cons_zero, List.getD_cons_succ]
        exact le_trans hx (ih2 k (by simpa using hj))
    · rw [hdef, if_neg hx]
      rw [hvd] at hx
      push_neg at hx
      refine ⟨by simpa using ih1, fun j hj => ?_, fun j hj => ?_⟩
      · cases j with
        | zero => rw [List.getD_cons_succ, List.getD_cons_zero]; exact le_of_lt hx
        | succ k =>
          rw [List.getD_cons_succ, List.getD_cons_succ]
          exact ih2 k (by simpa using hj)
      · cases j with
        | zero => rw [List.getD_cons_succ, List.getD_cons_zero]; exact hx
        | succ k =>
          rw [List.getD_cons_succ, List.getD_cons_succ]
          exact ih3 k (by omega)

/-- `argmaxL` returns the first index of a maximal element. -/
theorem argmaxL_isFirstMaxIdx {α : Type} [LinearOrder α] [Inhabited α] :
    ∀ (l : List α), l ≠ [] → IsFirstMaxIdx l (argmaxL l)
  | [], h => absurd rfl h
  | [x], _ => by
    refine ⟨by simp [argmaxL], fun j hj => ?_, fun j hj => ?_⟩
    · have hj0 : j = 0 := by simpa using hj
      subst hj0
      simp [argmaxL]
    · simp [argmaxL] at hj
  | x :: y :: ys, _ => by
    have ih := argmaxL_isFirstMaxIdx (y :: ys) (by simp)
    obtain ⟨ih1, ih2, ih3⟩ := ih
    have hdef : argmaxL (x :: y :: ys) =
        if (y :: ys).getD (argmaxL (y :: ys)) y ≤ x then 0
        else argmaxL (y :: ys) + 1 := rfl
    have hvd : (y :: ys).getD (argmaxL (y :: ys)) y
        = (y :: ys).getD (argmaxL (y :: ys)) default := by
      rw [List.getD_eq_getElem _ _ ih1, List.getD_eq_getElem _ _ ih1]
    by_cases hx : (y :: ys).getD (argmaxL (y :: ys)) y ≤ x
    · rw [hdef, if_pos hx]
      rw [hvd] at hx
      refine ⟨by simp, fun j hj => ?_, fun j hj => by omega⟩
      cases j with
      | zero => simp
      | succ k =>
        rw [List.getD_cons_zero, List.getD_cons_succ]
        exact le_trans (ih2 k (by simpa using hj)) hx
    · rw [hdef, if_neg hx]
      rw [hvd] at hx
      push_neg at hx
      refine ⟨by simpa using ih1, fun j hj => ?_, fun j hj => ?_⟩
      · cases j with
        | zero => rw [List.getD_cons_succ, List.getD_cons_zero]; exact le_of_lt hx
        | succ k =>
          rw [List.getD_cons_succ, List.getD_cons_succ]
          exact ih2 k (by simpa using hj)
      · cases j with
        | zero => rw [List.getD_cons_succ, List.getD_cons_zero]; exact hx
        | succ k =>
          rw [List.getD_cons_succ, List.getD_cons_succ]
          exact ih3 k (by omega)

theorem default_rat_eq : (default : ℚ) = 0 := rfl

theorem default_nat_eq : (default : ℕ) = 0 := rfl

/-- Strictly sorted lists are strictly monotone in `getD`. -/
theorem pairwise_lt_getD (l : List ℚ) (hp : List.Pairwise (· < ·) l)
    (a b : ℕ) (hab : a < b) (hb : b < l.length) : l.getD a 0 < l.getD b 0 := by
  rw [List.getD_eq_getElem _ _ (lt_trans hab hb), List.getD_eq_getElem _ _ hb]
  exact List.pairwise_iff_get.mp hp ⟨a, lt_trans hab hb⟩ ⟨b, hb⟩ hab

/-- C8: `_get_harmonics_indices` returns `n` indices; the `i`-th (0-based) is
the first index minimizing the distance between the negative-clamped bin
frequency and `(i+1) * power_frequency` (so exact ties pick the
lower-frequency bin); and when the target is exactly a bin frequency of a
strictly increasing frequency vector, that exact bin is selected. -/
theorem get_harmonics_indices_spec (sf : List ℚ) (n : ℕ) (pf : ℚ) (hsf : sf ≠ []) :
    (_get_harmonics_indices sf n pf).length = n
    ∧ (∀ i, i < n →
        IsFirstMinIdx ((sf.map (fun x => if x < 0 then 0 else x)).map
          (fun q => |q - ((i : ℚ) + 1) * pf|))
          ((_get_harmonics_indices sf n pf).getD i 0))
    ∧ (∀ i k, i < n → k < sf.length → List.Pairwise (· < ·) sf → 0 < pf →
        sf.getD k 0 = ((i : ℚ) + 1) * pf →
        (_get_harmonics_indices sf n pf).getD i 0 = k) := by
  have hlen : (_get_harmonics_indices sf n pf).length = n := by
    simp [_get_harmonics_indices]
  have hentry : ∀ i, i < n → (_get_harmonics_indices sf n pf).getD i 0 =
      argminL ((sf.map (fun x => if x < 0 then 0 else x)).map
        (fun q => |q - ((i : ℚ) + 1) * pf|)) := by
    intro i hi
    show ((List.range n).map (fun (i : ℕ) =>
      argminL ((sf.map (fun x => if x < 0 then 0 else x)).map
        (fun q => |q - ((i : ℚ) + 1) * pf|)))).getD i 0 = _
    rw [getD_map_of_lt _ _ i (by simpa using hi) 0 0]
    rw [List.getD_eq_getElem _ _ (by simpa using hi), List.getElem_range]
  have hmin : ∀ i, i < n →
      IsFirstMinIdx ((sf.map (fun x => if x < 0 then 0 else x)).map
        (fun q => |q - ((i : ℚ) + 1) * pf|))
        ((_get_harmonics_indices sf n pf).getD i 0) := by
    intro i hi
    rw [hentry i hi]
    exact argminL_isFirstMinIdx _ (by simp [hsf])
  refine ⟨hlen, hmin, ?_⟩
  intro i k hi hk hsorted hpf heq
  obtain ⟨hm1, hm2, hm3⟩ := hmin i hi
  simp only [default_rat_eq] at hm1 hm2 hm3
  set d := (sf.map (fun x => if x < 0 then 0 else x)).map
    (fun q => |q - ((i : ℚ) + 1) * pf|) with hd
  set m := (_get_harmonics_indices sf n pf).getD i 0 with hmdef
  have hdlen : d.length = sf.length := by simp [hd]
  have hdent : ∀ j, j < sf.length → d.getD j 0 =
      |(if sf.getD j 0 < 0 then 0 else sf.getD j 0) - ((i : ℚ) + 1) * pf| := by
    intro j hj
    rw [hd, getD_map_of_lt _ _ j (by simpa using hj) 0 0,
      getD_map_of_lt _ _ j hj 0 0]
  have htpos : 0 < ((i : ℚ) + 1) * pf := by positivity
  have hclampk : (if sf.getD k 0 < 0 then (0 : ℚ) else sf.getD k 0)
      = sf.getD k 0 := by
    rw [if_neg]
    rw [heq]
    exact not_lt.mpr (le_of_lt htpos)
  have hdk : d.getD k 0 = 0 := by
    rw [hdent k hk, hclampk, heq, sub_self, abs_zero]
  have hmlt : m < sf.length := by rw [← hdlen]; exact hm1
  have hdm0 : d.getD m 0 = 0 := by
    have h1 : d.getD m 0 ≤ d.getD k 0 := hm2 k (by rw [hdlen]; exact hk)
    have h2 : 0 ≤ d.getD m 0 := by rw [hdent m hmlt]; exact abs_nonneg _
    rw [hdk] at h1
    linarith
  rcases lt_trichotomy m k with hmk | hmk | hmk
  · exfalso
    have hclm : (if sf.getD m 0 < 0 then (0 : ℚ) else sf.getD m 0)
        = ((i : ℚ) + 1) * pf := by
      have := hdm0
      rw [hdent m hmlt, abs_eq_zero, sub_eq_zero] at this
      exact this
    by_cases hneg : sf.getD m 0 < 0
    · rw [if_pos hneg] at hclm
      exact absurd hclm.symm (ne_of_gt htpos)
    · rw [if_neg hneg] at hclm
      have hlt := pairwise_lt_getD sf hsorted m k hmk hk
      rw [hclm, heq] at hlt
      exact lt_irrefl _ hlt
  · exact hmk
  · exfalso
    have h3 := hm3 k hmk
    rw [hdk] at h3
    have h2 : 0 ≤ d.getD m 0 := by rw [hdent m hmlt]; exact abs_nonneg _
    linarith

/-- Witness for C8: on the strictly increasing frequency vector
`[0, 25, 50, 75]` with one harmonic of a 50 Hz power frequency, the exact
50 Hz bin (index 2) is selected. -/
theorem get_harmonics_indices_spec_witness :
    (_get_harmonics_indices [0, 25, 50, 75] 1 50).length = 1
    ∧ (_get_harmonics_indices [0, 25, 50, 75] 1 50).getD 0 0 = 2 := by
  refine ⟨(get_harmonics_indices_spec [0, 25, 50, 75] 1 50 (by simp)).1, ?_⟩
  refine (get_harmonics_indices_spec [0, 25, 50, 75] 1 50 (by simp)).2.2 0 2
    (by omega) (by simp) ?_ (by norm_num) (by norm_num)
  norm_num [List.pairwise_cons]

/-- C3: `_mains_frequency_amplitude` fails, with an error naming the resolved
frequency, if and only if that frequency is not an exact member of the
bin-frequency vector of the spectrum's implied window; otherwise it returns
the (rows, 1) amplitude column at that bin. -/
theorem mains_frequency_amplitude_spec (s : Mat) (mf : Option ℚ) (pf sr : ℚ) :
    (_mains_frequency_amplitude s mf pf sr
        = .error (.invalidMainsFrequency (resolvedMainsFrequency s mf pf sr))
      ↔ resolvedMainsFrequency s mf pf sr
          ∉ spectral_frequencies (_get_window_from_spectrum s) 20 false pf sr)
    ∧ (∀ idx,
        idx < (spectral_frequencies (_get_window_from_spectrum s) 20 false pf sr).length →
        (spectral_frequencies (_get_window_from_spectrum s) 20 false pf sr).getD idx 0
          = resolvedMainsFrequency s mf pf sr →
        (∀ j, j < idx →
          (spectral_frequencies (_get_window_from_spectrum s) 20 false pf sr).getD j 0
            ≠ resolvedMainsFrequency s mf pf sr) →
        _mains_frequency_amplitude s mf pf sr
          = .ok (s.map (fun row => [row.getD idx 0]))) :=
  ⟨(mains_amp_spec s mf pf sr).1, (mains_amp_spec s mf pf sr).2.2⟩

/-- Witness for C3: on a 3-column spectrum (window 4, bins at 0, 1600 and
3200 Hz) requesting 13 Hz fails with an error naming 13, while requesting
1600 Hz returns the second amplitude column. -/
theorem mains_frequency_amplitude_spec_witness :
    _mains_frequency_amplitude [[1, 2, 3]] (some 13) 50 6400
        = .error (.invalidMainsFrequency 13)
    ∧ _mains_frequency_amplitude [[1, 2, 3]] (some 1600) 50 6400 = .ok [[2]] := by
  constructor
  · exact (mains_frequency_amplitude_spec [[1, 2, 3]] (some 13) 50 6400).1.mpr
      (by norm_num [spectral_frequencies, _get_window_from_spectrum,
        resolvedMainsFrequency, List.range_succ])
  · have h := (mains_frequency_amplitude_spec [[1, 2, 3]] (some 1600) 50 6400).2 1
      (by norm_num [spectral_frequencies, _get_window_from_spectrum, List.range_succ])
      (by norm_num [spectral_frequencies, _get_window_from_spectrum,
        resolvedMainsFrequency, List.range_succ])
      (by intro j hj
          have hj0 : j = 0 := by omega
          subst hj0
          norm_num [spectral_frequencies, _get_window_from_spectrum,
            resolvedMainsFrequency, List.range_succ])
    simpa using h

/-- C4: `harmonics_energy_distribution` and `total_harmonic_distortion`
always resolve the mains amplitude with the module defaults (50 Hz mains, the
default sampling rate); both fail with the invalid-mains-frequency error
naming 50 exactly when 50 Hz is not a bin frequency of the spectrum's implied
window, and both succeed otherwise. -/
theorem hed_thd_default_mains (h s : Mat) :
    ((50 : ℚ) ∉ spectral_frequencies (_get_window_from_spectrum s) 20 false
        POWER_FREQUENCY SAMPLING_RATE →
      harmonics_energy_distribution h s = .error (.invalidMainsFrequency 50)
      ∧ total_harmonic_distortion h s = .error (.invalidMainsFrequency 50))
    ∧ ((50 : ℚ) ∈ spectral_frequencies (_get_window_from_spectrum s) 20 false
        POWER_FREQUENCY SAMPLING_RATE →
      (∃ m, harmonics_energy_distribution h s = .ok m)
      ∧ ∃ t, total_harmonic_distortion h s = .ok t) := by
  have hspec := mains_amp_spec s (some POWER_FREQUENCY) POWER_FREQUENCY SAMPLING_RATE
  constructor
  · intro hnot
    have herr : _mains_frequency_amplitude s (some POWER_FREQUENCY)
        POWER_FREQUENCY SAMPLING_RATE = .error (.invalidMainsFrequency 50) :=
      hspec.1.mpr hnot
    constructor
    · simp only [harmonics_energy_distribution, herr]
    · simp only [total_harmonic_distortion, herr]
  · intro hmem
    obtain ⟨v, hv⟩ := hspec.2.1.mpr hmem
    constructor
    · refine ⟨List.zipWith (fun hrow mrow => hrow.map (fun x => x / mrow.getD 0 0)) h v, ?_⟩
      simp only [harmonics_energy_distribution, hv]
    · refine ⟨List.zipWith (fun hrow mrow => rms hrow / ((mrow.getD 0 0 : ℚ) : ℝ)) h v, ?_⟩
      simp only [total_harmonic_distortion, hv]

/-- Witness for C4: a 2-column spectrum implies window 2 with bins at 0 and
3200 Hz only, so both features fail with the error naming 50 Hz. -/
theorem hed_thd_default_mains_witness :
    ((50 : ℚ) ∉ spectral_frequencies (_get_window_from_spectrum [[(1 : ℚ), 2]]) 20 false
        POWER_FREQUENCY SAMPLING_RATE)
    ∧ harmonics_energy_distribution [[1, 1]] [[1, 2]]
        = .error (.invalidMainsFrequency 50)
    ∧ total_harmonic_distortion [[1, 1]] [[1, 2]]
        = .error (.invalidMainsFrequency 50) := by
  have hnot : (50 : ℚ) ∉ spectral_frequencies (_get_window_from_spectrum [[(1 : ℚ), 2]])
      20 false POWER_FREQUENCY SAMPLING_RATE := by
    norm_num [spectral_frequencies, _get_window_from_spectrum,
      POWER_FREQUENCY, SAMPLING_RATE, List.range_succ]
  exact ⟨hnot, ((hed_thd_default_mains [[1, 1]] [[1, 2]]).1 hnot).1,
    ((hed_thd_default_mains [[1, 1]] [[1, 2]]).1 hnot).2⟩

theorem mem_insertSortedDedup (x a : ℚ) (l : List ℚ) :
    a ∈ insertSortedDedup x l ↔ a = x ∨ a ∈ l := by
  induction l with
  | nil => simp [insertSortedDedup]
  | cons y ys ih =>
    by_cases h1 : x < y
    · simp [insertSortedDedup, if_pos h1]
    · by_cases h2 : x = y
      · subst h2
        simp [insertSortedDedup, if_neg h1]
      · simp only [insertSortedDedup, if_neg h1, if_neg h2, List.mem_cons, ih]
        tauto

theorem sorted_insertSortedDedup (x : ℚ) (l : List ℚ)
    (hl : List.Pairwise (· < ·) l) :
    List.Pairwise (· < ·) (insertSortedDedup x l) := by
  induction l with
  | nil => simp [insertSortedDedup]
  | cons y ys ih =>
    rw [List.pairwise_cons] at hl
    obtain ⟨hy, hys⟩ := hl
    by_cases h1 : x < y
    · rw [insertSortedDedup, if_pos h1, List.pairwise_cons]
      refine ⟨fun b hb => ?_, List.pairwise_cons.mpr ⟨hy, hys⟩⟩
      rcases List.mem_cons.mp hb with hb | hb
      · exact hb ▸ h1
      · exact lt_trans h1 (hy b hb)
    · by_cases h2 : x = y
      · rw [insertSortedDedup, if_neg h1, if_pos h2]
        exact List.pairwise_cons.mpr ⟨hy, hys⟩
      · have hyx : y < x := by
          rcases lt_trichotomy x y with h | h | h
          · exact absurd h h1
          · exact absurd h h2
          · exact h
        rw [insertSortedDedup, if_neg h1, if_neg h2, List.pairwise_cons]
        refine ⟨fun b hb => ?_, ih hys⟩
        rcases (mem_insertSortedDedup x b ys).mp hb with hb | hb
        · exact hb ▸ hyx
        · exact hy b hb

theorem mem_sortedDedup (a : ℚ) (l : List ℚ) : a ∈ sortedDedup l ↔ a ∈ l := by
  induction l with
  | nil => simp [sortedDedup]
  | cons x xs ih =>
    show a ∈ insertSortedDedup x (sortedDedup xs) ↔ _
    rw [mem_insertSortedDedup, ih, List.mem_cons]

theorem sorted_sortedDedup (l : List ℚ) :
    List.Pairwise (· < ·) (sortedDedup l) := by
  induction l with
  | nil => simp [sortedDedup]
  | cons x xs ih => exact sorted_insertSortedDedup x (sortedDedup xs) ih

theorem list_map_prod_eq_range (l : List ℚ) (f : ℚ → ℝ) :
    (l.map f).prod = ∏ i ∈ Finset.range l.length, f (l.getD i 0) := by
  induction l with
  | nil => simp
  | cons x xs ih =>
    rw [List.map_cons, List.prod_cons, List.length_cons, Finset.prod_range_succ']
    simp only [List.getD_cons_succ, List.getD_cons_zero]
    rw [ih, mul_comm]

theorem list_map_sum_eq_range (l : List ℚ) (f : ℚ → ℝ) :
    (l.map f).sum = ∑ i ∈ Finset.range l.length, f (l.getD i 0) := by
  induction l with
  | nil => simp
  | cons x xs ih =>
    rw [List.map_cons, List.sum_cons, List.length_cons, Finset.sum_range_succ']
    simp only [List.getD_cons_succ, List.getD_cons_zero]
    rw [ih, add_comm]

theorem cast_list_sum (l : List ℚ) :
    ((l.sum : ℚ) : ℝ) = (l.map (fun (x : ℚ) => (x : ℝ))).sum := by
  induction l with
  | nil => simp
  | cons x xs ih => simp [ih]

/-- AM-GM for the row-wise geometric mean: on a nonempty list of positive
rationals the geometric mean is at most the arithmetic mean. -/
theorem geo_mean_le_mean (l : List ℚ) (hne : l ≠ []) (hpos : ∀ x ∈ l, 0 < x) :
    geo_mean l ≤ ((l.sum / (l.length : ℚ) : ℚ) : ℝ) := by
  have hn : l.length ≠ 0 := by simpa using hne
  have hz : ∀ i ∈ Finset.range l.length, (0 : ℝ) ≤ ((l.getD i 0 : ℚ) : ℝ) := by
    intro i hi
    rw [Finset.mem_range] at hi
    have hmem : l.getD i 0 ∈ l := by
      rw [List.getD_eq_getElem _ _ hi]
      exact List.getElem_mem hi
    exact_mod_cast (hpos _ hmem).le
  have hw' : ∑ _i ∈ Finset.range l.length, ((l.length : ℝ))⁻¹ = 1 := by
    rw [Finset.sum_const, Finset.card_range, nsmul_eq_mul]
    field_simp
  have hamgm := Real.geom_mean_le_arith_mean_weighted (Finset.range l.length)
    (fun _ => ((l.length : ℝ))⁻¹) (fun i => ((l.getD i 0 : ℚ) : ℝ))
    (fun i _ => by positivity) hw' hz
  rw [Real.finset_prod_rpow _ _ hz] at hamgm
  rw [← Finset.mul_sum] at hamgm
  have hprod : (l.map (fun (x : ℚ) => (x : ℝ))).prod
      = ∏ i ∈ Finset.range l.length, ((l.getD i 0 : ℚ) : ℝ) :=
    list_map_prod_eq_range l _
  have hsum : ((l.sum : ℚ) : ℝ)
      = ∑ i ∈ Finset.range l.length, ((l.getD i 0 : ℚ) : ℝ) := by
    rw [cast_list_sum, list_map_sum_eq_range]
  have hcast : ((l.sum / (l.length : ℚ) : ℚ) : ℝ)
      = ((l.length : ℝ))⁻¹
        * ∑ i ∈ Finset.range l.length, ((l.getD i 0 : ℚ) : ℝ) := by
    rw [← hsum]
    push_cast
    ring
  rw [geo_mean, one_div, hprod, hcast]
  exact hamgm

/-- C9: on non-negative, not-all-zero spectrum rows, the spectral flatness
(with zeros clamped to 1e-5 before the means are taken) lies in (0, 1]. -/
theorem spectral_flatness_bounds (s : Mat)
    (hnn : ∀ r ∈ s, ∀ x ∈ r, 0 ≤ x) (hnz : ∀ r ∈ s, ∃ x ∈ r, x ≠ 0) :
    ∀ v ∈ spectral_flatness s, 0 < v ∧ v ≤ 1 := by
  intro v hv
  rw [spectral_flatness, List.mem_map] at hv
  obtain ⟨row, hrow, hveq⟩ := hv
  subst hveq
  dsimp only
  have hcpos : ∀ x ∈ row.map clampF, 0 < x := by
    intro x hx
    rw [List.mem_map] at hx
    obtain ⟨y, hy, hyx⟩ := hx
    subst hyx
    unfold clampF
    by_cases hy0 : y = 0
    · rw [if_pos hy0]
      norm_num
    · rw [if_neg hy0]
      exact lt_of_le_of_ne (hnn row hrow y hy) (Ne.symm hy0)
  have hcne : row.map clampF ≠ [] := by
    obtain ⟨x, hx, _⟩ := hnz row hrow
    rw [Ne, List.map_eq_nil_iff]
    intro h
    subst h
    simp at hx
  have hgeo_pos : 0 < geo_mean (row.map clampF) := by
    rw [geo_mean]
    apply Real.rpow_pos_of_pos
    apply List.prod_pos
    intro a ha
    rw [List.mem_map] at ha
    obtain ⟨y, hy, rfl⟩ := ha
    exact_mod_cast hcpos y hy
  have hmean_pos : (0 : ℝ)
      < (((row.map clampF).sum / ((row.map clampF).length : ℚ) : ℚ) : ℝ) := by
    have h1 : 0 < (row.map clampF).sum := List.sum_pos _ hcpos hcne
    have h2 : 0 < ((row.map clampF).length : ℚ) := by
      exact_mod_cast List.length_pos.mpr hcne
    exact_mod_cast div_pos h1 h2
  exact ⟨div_pos hgeo_pos hmean_pos,
    (div_le_one hmean_pos).mpr (geo_mean_le_mean _ hcne hcpos)⟩

/-- Witness for C9: the concrete row `[1, 2]` is non-negative and not all
zero, and its flatness lies in (0, 1]. -/
theorem spectral_flatness_bounds_witness :
    (∀ r ∈ [[(1 : ℚ), 2]], ∀ x ∈ r, 0 ≤ x)
    ∧ (∀ r ∈ [[(1 : ℚ), 2]], ∃ x ∈ r, x ≠ 0)
    ∧ ∀ v ∈ spectral_flatness [[1, 2]], 0 < v ∧ v ≤ 1 :=
  ⟨by decide, by decide,
    spectral_flatness_bounds [[1, 2]] (by decide) (by decide)⟩

/-- C10: among the per-row peak-amplitude frequencies, the majority vote
returns a most common frequency, and on ties the smallest tied frequency
value. -/
theorem peak_amplitude_frequency_tiebreak (s : Mat) (freqs : List ℚ)
    (hs : s ≠ []) :
    _peak_amplitude_frequency s freqs
        ∈ s.map (fun row => freqs.getD (argmaxL row) 0)
    ∧ (∀ v, (s.map (fun row => freqs.getD (argmaxL row) 0)).count v
        ≤ (s.map (fun row => freqs.getD (argmaxL row) 0)).count
            (_peak_amplitude_frequency s freqs))
    ∧ (∀ v ∈ s.map (fun row => freqs.getD (argmaxL row) 0),
        (s.map (fun row => freqs.getD (argmaxL row) 0)).count v
          = (s.map (fun row => freqs.getD (argmaxL row) 0)).count
              (_peak_amplitude_frequency s freqs) →
        _peak_amplitude_frequency s freqs ≤ v) := by
  set peaks := s.map (fun row => freqs.getD (argmaxL row) 0) with hpeaks
  set values := sortedDedup peaks with hvalues
  set counts := values.map (fun v => peaks.count v) with hcounts
  have hdef : _peak_amplitude_frequency s freqs
      = values.getD (argmaxL counts) 0 := rfl
  have hpne : peaks ≠ [] := by
    rw [hpeaks]
    simpa using hs
  have hvne : values ≠ [] := by
    intro hv
    rcases List.exists_mem_of_ne_nil peaks hpne with ⟨a, ha⟩
    have := (mem_sortedDedup a peaks).mpr ha
    rw [← hvalues] at this
    rw [hv] at this
    simp at this
  have hcne : counts ≠ [] := by
    rw [hcounts]
    simpa using hvne
  obtain ⟨hM1, hM2, hM3⟩ := argmaxL_isFirstMaxIdx counts hcne
  simp only [default_nat_eq] at hM1 hM2 hM3
  have hclen : counts.length = values.length := by simp [hcounts]
  have hMv : argmaxL counts < values.length := by rw [← hclen]; exact hM1
  have hcent : ∀ j, j < values.length →
      counts.getD j 0 = peaks.count (values.getD j 0) := by
    intro j hj
    rw [hcounts, getD_map_of_lt _ _ j hj 0 0]
  have hrmem : _peak_amplitude_frequency s freqs ∈ peaks := by
    rw [hdef, ← mem_sortedDedup _ peaks, ← hvalues,
      List.getD_eq_getElem _ _ hMv]
    exact List.getElem_mem hMv
  have hcount_le : ∀ v, peaks.count v
      ≤ peaks.count (_peak_amplitude_frequency s freqs) := by
    intro v
    by_cases hv : v ∈ peaks
    · have hvv : v ∈ values := by rw [hvalues, mem_sortedDedup]; exact hv
      obtain ⟨j, hj, hjv⟩ := List.mem_iff_getElem.mp hvv
      have hj' : values.getD j 0 = v := by rw [List.getD_eq_getElem _ _ hj, hjv]
      have := hM2 j (by rw [hclen]; exact hj)
      rw [hcent j hj, hcent (argmaxL counts) hMv, hj'] at this
      rw [hdef]
      exact this
    · rw [List.count_eq_zero_of_not_mem hv]
      exact Nat.zero_le _
  refine ⟨hrmem, hcount_le, ?_⟩
  intro v hv hcnt
  have hvv : v ∈ values := by rw [hvalues, mem_sortedDedup]; exact hv
  obtain ⟨j, hj, hjv⟩ := List.mem_iff_getElem.mp hvv
  have hj' : values.getD j 0 = v := by rw [List.getD_eq_getElem _ _ hj, hjv]
  rcases lt_trichotomy j (argmaxL counts) with hjM | hjM | hjM
  · exfalso
    have hlt := hM3 j hjM
    rw [hcent j hj, hcent (argmaxL counts) hMv, hj'] at hlt
    rw [hdef] at hcnt
    omega
  · rw [hdef, ← hjM, hj']
  · have := pairwise_lt_getD values (hvalues ▸ sorted_sortedDedup peaks)
      (argmaxL counts) j hjM hj
    rw [hj'] at this
    rw [hdef]
    exact le_of_lt this

/-- Witness for C10: peaks `[10, 20]` are tied one vote each; the smaller
frequency 10 is returned. -/
theorem peak_amplitude_frequency_tiebreak_witness :
    _peak_amplitude_frequency [[5, 1], [1, 5]] [10, 20] = 10
    ∧ (_peak_amplitude_frequency [[5, 1], [1, 5]] [10, 20]
        ∈ [[(5 : ℚ), 1], [1, 5]].map (fun row => [(10 : ℚ), 20].getD (argmaxL row) 0)
      ∧ (∀ v, ([[(5 : ℚ), 1], [1, 5]].map
            (fun row => [(10 : ℚ), 20].getD (argmaxL row) 0)).count v
          ≤ ([[(5 : ℚ), 1], [1, 5]].map
              (fun row => [(10 : ℚ), 20].getD (argmaxL row) 0)).count
              (_peak_amplitude_frequency [[5, 1], [1, 5]] [10, 20]))
      ∧ (∀ v ∈ [[(5 : ℚ), 1], [1, 5]].map
            (fun row => [(10 : ℚ), 20].getD (argmaxL row) 0),
          ([[(5 : ℚ), 1], [1, 5]].map
              (fun row => [(10 : ℚ), 20].getD (argmaxL row) 0)).count v
            = ([[(5 : ℚ), 1], [1, 5]].map
                (fun row => [(10 : ℚ), 20].getD (argmaxL row) 0)).count
                (_peak_amplitude_frequency [[5, 1], [1, 5]] [10, 20]) →
          _peak_amplitude_frequency [[5, 1], [1, 5]] [10, 20] ≤ v)) :=
  ⟨by decide, peak_amplitude_frequency_tiebreak [[5, 1], [1, 5]] [10, 20] (by simp)⟩

/-- C1: the implemented odd-even ratio contradicts the documented formula.
On the 20-harmonic row `[1, 2, 3, 0, ..., 0]` the code returns `x1 / x2 = 1/2`
(its index sets are `[0]` and `[1]`), while the documented
mean-of-odds over mean-of-evens formula gives `(4/10) / (2/10) = 2`. -/
theorem odd_even_ratio_bug :
    odd_even_ratio [[1, 2, 3] ++ List.replicate 17 0] = [[1 / 2]]
    ∧ spec_odd_even_ratio ([1, 2, 3] ++ List.replicate 17 0) = 2 := by
  constructor
  · norm_num [odd_even_ratio, arangeStep, meanQ, List.range_succ]
  · norm_num [spec_odd_even_ratio, arangeStep, meanQ, List.range_succ]

/-- C2: the implemented tristimulus contradicts the documented formula.
On the 20-harmonic row with `x1 = 1`, `x10 = 1` and all other amplitudes `0`,
the code computes `T3` from columns `4:9` (harmonics 5..9) and returns
`(1/2, 0, 0)`, while the documented formula sums harmonics 5..10 and gives
`T3 = 1/2`. -/
theorem tristiumulus_bug :
    tristiumulus [[1, 0, 0, 0, 0, 0, 0, 0, 0, 1] ++ List.replicate 10 0]
      = [[1 / 2, 0, 0]]
    ∧ spec_tristiumulus ([1, 0, 0, 0, 0, 0, 0, 0, 0, 1] ++ List.replicate 10 0)
      = [1 / 2, 0, 1 / 2] := by
  constructor
  · norm_num [tristiumulus, sliceList]
  · norm_num [spec_tristiumulus, sliceList]

theorem map_eq_self_of_eq {α : Type} (l : List α) (f : α → α) (h : ∀ x ∈ l, f x = x) :
    l.map f = l := by
  induction l with
  | nil => rfl
  | cons x xs ih =>
    simp only [List.map_cons]
    rw [h x (by simp), ih (fun y hy => h y (by simp [hy]))]

/-- C5: the "none" filter type is the identity transform: on any spectrum
whose rows all have the implied column count, `high_pass_filter` with type
"none" returns the spectrum unchanged. -/
theorem high_pass_filter_none_id (s : Mat) (f : ℚ)
    (hu : ∀ r ∈ s, r.length = (s.head?.getD []).length) :
    high_pass_filter s "none" f = .ok s := by
  have h1 : high_pass_filter s "none" f
      = .ok (s.map (fun row => List.zipWith (fun x gn => x * gn) row
          ((spectral_frequencies (_get_window_from_spectrum s) 20 false
            POWER_FREQUENCY SAMPLING_RATE).map (fun _ => (1 : ℚ))))) := rfl
  rw [h1]
  congr 1
  refine map_eq_self_of_eq _ _ (fun r hr => ?_)
  refine zipWith_mul_ones r _ (by simp) ?_
  rw [List.length_map]
  exact row_length_le_freqs s 20 POWER_FREQUENCY SAMPLING_RATE hu r hr

/-- Witness for C5: a concrete 2×2 spectrum is returned unchanged by the
"none" filter. -/
theorem high_pass_filter_none_id_witness :
    high_pass_filter [[1, 2], [3, 4]] "none" 1000 = .ok [[1, 2], [3, 4]] :=
  high_pass_filter_none_id [[1, 2], [3, 4]] 1000 (by simp)

/-- C6: the "zero" filter type zeroes every bin whose frequency is strictly
below the cutoff and leaves every bin at or above the cutoff unchanged. -/
theorem high_pass_filter_zero_spec (s : Mat) (f : ℚ)
    (hu : ∀ r ∈ s, r.length = (s.head?.getD []).length) :
    ∃ out, high_pass_filter s "zero" f = .ok out ∧ out.length = s.length
      ∧ ∀ i j, i < s.length → j < (s.getD i []).length →
          (out.getD i []).getD j 0 =
            if (spectral_frequencies (_get_window_from_spectrum s) 20 false
                POWER_FREQUENCY SAMPLING_RATE).getD j 0 < f
            then 0 else (s.getD i []).getD j 0 := by
  refine ⟨_, rfl, by simp, ?_⟩
  intro i j hi hj
  have hmem : s.getD i [] ∈ s := by
    rw [List.getD_eq_getElem _ _ hi]
    exact List.getElem_mem hi
  have hjf : j < (spectral_frequencies (_get_window_from_spectrum s) 20 false
      POWER_FREQUENCY SAMPLING_RATE).length :=
    lt_of_lt_of_le hj (row_length_le_freqs s 20 POWER_FREQUENCY SAMPLING_RATE hu _ hmem)
  rw [getD_map_of_lt _ s i hi [] []]
  rw [getD_zipWith_of_lt (fun x gn => x * gn) (s.getD i []) _ j hj
    (by rw [List.length_map]; exact hjf) 0 0 0]
  rw [getD_map_of_lt (fun q => if q < f then (0 : ℚ) else 1) _ j hjf 0 0]
  by_cases hc : (spectral_frequencies (_get_window_from_spectrum s) 20 false
      POWER_FREQUENCY SAMPLING_RATE).getD j 0 < f
  · simp [hc]
  · simp [hc]

/-- Witness for C6: on the spectrum row `[5, 6, 7]` (bins at 0, 1600 and
3200 Hz) with cutoff 2000 Hz, the first two bins are zeroed and the last one
kept. -/
theorem high_pass_filter_zero_spec_witness :
    high_pass_filter [[5, 6, 7]] "zero" 2000 = .ok [[0, 0, 7]]
    ∧ ∃ out, high_pass_filter [[5, 6, 7]] "zero" 2000 = .ok out
      ∧ out.length = [[(5 : ℚ), 6, 7]].length
      ∧ ∀ i j, i < [[(5 : ℚ), 6, 7]].length
          → j < ([[(5 : ℚ), 6, 7]].getD i []).length →
          (out.getD i []).getD j 0 =
            if (spectral_frequencies (_get_window_from_spectrum [[(5 : ℚ), 6, 7]]) 20
                false POWER_FREQUENCY SAMPLING_RATE).getD j 0 < 2000
            then 0 else ([[(5 : ℚ), 6, 7]].getD i []).getD j 0 := by
  constructor
  · norm_num [high_pass_filter, spectral_frequencies, _get_window_from_spectrum,
      SAMPLING_RATE, POWER_FREQUENCY, List.range_succ]
  · exact high_pass_filter_zero_spec [[5, 6, 7]] 2000 (by simp)

/-- C7: `high_pass_filter` fails, with an error naming the offending filter
type, exactly when the filter type is not one of zero, linear, quadratic,
none; for those four it always succeeds. -/
theorem high_pass_filter_type_spec (s : Mat) (t : String) (f : ℚ) :
    (high_pass_filter s t f = .error (.unsupportedFilterType t)
      ↔ t ∉ ["zero", "linear", "quadratic", "none"])
    ∧ (t ∈ ["zero", "linear", "quadratic", "none"]
        → ∃ out, high_pass_filter s t f = .ok out) := by
  by_cases h1 : t = "zero"
  · subst h1; exact ⟨by simp [high_pass_filter], fun _ => ⟨_, rfl⟩⟩
  · by_cases h2 : t = "linear"
    · subst h2; exact ⟨by simp [high_pass_filter], fun _ => ⟨_, rfl⟩⟩
    · by_cases h3 : t = "quadratic"
      · subst h3; exact ⟨by simp [high_pass_filter], fun _ => ⟨_, rfl⟩⟩
      · by_cases h4 : t = "none"
        · subst h4; exact ⟨by simp [high_pass_filter], fun _ => ⟨_, rfl⟩⟩
        · refine ⟨?_, ?_⟩
          · simp only [high_pass_filter, if_neg h1, if_neg h2, if_neg h3, if_neg h4]
            simp [h1, h2, h3, h4]
          · intro ht
            simp [List.mem_cons, h1, h2, h3, h4] at ht

/-- Witness for C7: "cubic" is rejected with an error naming it, while
"linear" succeeds. -/
theorem high_pass_filter_type_spec_witness :
    ("cubic" ∉ (["zero", "linear", "quadratic", "none"] : List String)
      ∧ high_pass_filter [[1, 2]] "cubic" 1000
          = .error (.unsupportedFilterType "cubic"))
    ∧ ∃ out, high_pass_filter [[1, 2]] "linear" 1000 = .ok out := by
  refine ⟨⟨by decide, ?_⟩, ?_⟩
  · exact (high_pass_filter_type_spec [[1, 2]] "cubic" 1000).1.mpr (by decide)
  · exact (high_pass_filter_type_spec [[1, 2]] "linear" 1000).2 (by decide)

example : arangeStep 0 20 20 = [0] := by decide
example : arangeStep 1 20 20 = [1] := by decide
example : arangeStep 0 20 2 = [0, 2, 4, 6, 8, 10, 12, 14, 16, 18] := by decide
example : arangeStep 1 20 2 = [1, 3, 5, 7, 9, 11, 13, 15, 17, 19] := by decide
example : meanQ [1, 2, 3] = 2 := by norm_num [meanQ]
example : odd_even_ratio [[1, 2, 3] ++ List.replicate 17 0] = [[1 / 2]] := by
  norm_num [odd_even_ratio, arangeStep, meanQ, List.range_succ]
example : argminL [(3 : ℚ), 1, 1, 2] = 1 := by decide
example : argmaxL [(3 : ℚ), 5, 5, 2] = 1 := by decide
example : sortedDedup [3, 1, 2, 1] = [1, 2, 3] := by decide
example : spectral_frequencies 4 20 false 50 6400 = [0, 1600, 3200] := by
  norm_num [spectral_frequencies, List.range_succ]
